import Mathlib

/-!
Verification of the substitution core of `cbsub` (src/main.rs).

Strings are modelled as `List Char`.  The placeholder regex
`\x7b\x7b\s*([a-zA-Z0-9_]+)\s*\x7d\x7d` compiled by `extract_variables` and
`process_content` is embedded as `pmatch` (an anchored match attempt at the
head of the input) together with `scanGo`, the regex engine's leftmost,
non-overlapping scan.  Both Rust functions instantiate the same scan, exactly
as both call the same regex engine: `extract_variables` collects the first
capture group of every match (`captures_iter`), `process_content` rewrites
every match (`replace_all`).

`HashSet<String>` is modelled as a duplicate-free `List (List Char)`;
`HashMap<String, String>` as an association list whose head is the most
recent insertion (`hmInsert` / `lookupSub`).  Rust `str::to_lowercase` is
modelled by per-character ASCII folding (`lowerStr`); this is exact on the
ASCII range, which covers every captured placeholder name (`[a-zA-Z0-9_]+`).

The string errors returned by `parse_substitution`, `get_single_substitution`
and `main` are embedded as the closed variant type `SubsError`, one
constructor per distinct error site, carrying the data interpolated into the
Rust message.
-/

namespace Cbsub

/-- The literal character `\x7b`. -/
def lbrace : Char := Char.ofNat 123

/-- The literal character `\x7d`. -/
def rbrace : Char := Char.ofNat 125

/-- The literal character `=` (code point 61), the delimiter of `-s` entries. -/
def eqChar : Char := Char.ofNat 61

/-- The regex character class `[a-zA-Z0-9_]` of src/main.rs lines 43 and 54
(explicit ASCII ranges in the pattern). -/
def isWordChar (c : Char) : Bool :=
  decide ((65 ≤ c.toNat ∧ c.toNat ≤ 90) ∨ (97 ≤ c.toNat ∧ c.toNat ≤ 122) ∨
    (48 ≤ c.toNat ∧ c.toNat ≤ 57) ∨ c.toNat = 95)

/-- The regex class `\s` (Unicode White_Space, the default for the Rust
`regex` crate): TAB, LF, VT, FF, CR, SPACE, NEL, NBSP, OGHAM SPACE MARK,
U+2000–U+200A, LINE/PARAGRAPH SEPARATOR, NARROW NBSP, MMSP, IDEOGRAPHIC
SPACE. -/
def isSpaceChar (c : Char) : Bool :=
  decide (c.toNat = 9 ∨ c.toNat = 10 ∨ c.toNat = 11 ∨ c.toNat = 12 ∨
    c.toNat = 13 ∨ c.toNat = 32 ∨ c.toNat = 133 ∨ c.toNat = 160 ∨
    c.toNat = 5760 ∨ (8192 ≤ c.toNat ∧ c.toNat ≤ 8202) ∨ c.toNat = 8232 ∨
    c.toNat = 8233 ∨ c.toNat = 8239 ∨ c.toNat = 8287 ∨ c.toNat = 12288)

/-- Rust `str::to_lowercase`, per character (exact on ASCII; placeholder
names are ASCII). -/
def lowerStr (s : List Char) : List Char := s.map Char.toLower

/-- One regex match: the captured name (`cap[1]`), the whole matched span
(`cap[0]`), and the remaining input after the span. -/
structure PMatch where
  name : List Char
  whole : List Char
  rest : List Char

/-- Anchored attempt of `\x7b\x7b\s*([a-zA-Z0-9_]+)\s*\x7d\x7d` at the head
of `cs`.  The three character classes are pairwise disjoint, so the greedy
quantifiers of the pattern are exactly `takeWhile` and the match attempt is
deterministic (no backtracking can succeed where this fails). -/
def pmatch (cs : List Char) : Option PMatch :=
  match cs with
  | c1 :: c2 :: r0 =>
    if c1 = lbrace ∧ c2 = lbrace then
      let ws1 := r0.takeWhile isSpaceChar
      let r1 := r0.dropWhile isSpaceChar
      let name := r1.takeWhile isWordChar
      let r2 := r1.dropWhile isWordChar
      if name = [] then none
      else
        let ws2 := r2.takeWhile isSpaceChar
        let r3 := r2.dropWhile isSpaceChar
        match r3 with
        | d1 :: d2 :: r4 =>
          if d1 = rbrace ∧ d2 = rbrace then
            some ⟨name, c1 :: c2 :: (ws1 ++ name ++ ws2 ++ [d1, d2]), r4⟩
          else none
        | _ => none
    else none
  | _ => none

/-- The regex engine's leftmost non-overlapping scan, fuelled (each step
consumes at least one character, so `length` fuel suffices).  `f` is emitted
for a character not starting any match, `g name whole` for each match. -/
def scanGo {α : Type} (f : Char → List α) (g : List Char → List Char → List α) :
    Nat → List Char → List α
  | 0, _ => []
  | _ + 1, [] => []
  | n + 1, c :: cs =>
    match pmatch (c :: cs) with
    | some m => g m.name m.whole ++ scanGo f g n m.rest
    | none => f c ++ scanGo f g n cs

/-- The scan over a whole input. -/
def scan {α : Type} (f : Char → List α) (g : List Char → List Char → List α)
    (content : List Char) : List α :=
  scanGo f g content.length content

/-- The first capture group of every match, in match order
(`captures_iter` of src/main.rs line 45). -/
def captures (content : List Char) : List (List Char) :=
  scan (fun _ => []) (fun name _ => [name]) content

/-- src/main.rs lines 42–49: the set of lowercased captured names, as a
duplicate-free list (the model of the `HashSet`). -/
def extract_variables (content : List Char) : List (List Char) :=
  ((captures content).map lowerStr).dedup

/-- Lookup in the association-list model of `HashMap::get`. -/
def lookupSub (substitutions : List (List Char × List Char)) (key : List Char) :
    Option (List Char) :=
  match substitutions with
  | [] => none
  | (k, v) :: rest => if k = key then some v else lookupSub rest key

/-- src/main.rs lines 53–60 (`replace_all`): each match is replaced by the
value of its lowercased name, or kept verbatim (`caps[0]`) when the name is
absent from the mapping. -/
def process_content (content : List Char)
    (substitutions : List (List Char × List Char)) : List Char :=
  scan (fun c => [c])
    (fun name whole => (lookupSub substitutions (lowerStr name)).getD whole)
    content

/-- One segment of the scan: a character not belonging to any match, or one
match with its captured name and whole span. -/
inductive Seg where
  | lit (c : Char)
  | ph (name whole : List Char)

/-- The full segmentation of the input by the scan. -/
def segments (content : List Char) : List Seg :=
  scan (fun c => [Seg.lit c]) (fun name whole => [Seg.ph name whole]) content

/-- The characters of the input lying outside every match. -/
def unmatchedChars (content : List Char) : List Char :=
  scan (fun c => [c]) (fun _ _ => []) content

/-- Regex `is_match`: some position of `cs` starts a match of the
placeholder pattern. -/
def hasPlaceholder : List Char → Bool
  | [] => false
  | c :: cs => (pmatch (c :: cs)).isSome || hasPlaceholder cs

/-- Interpretation of one segment (used to relate the scan instances). -/
def segApply {α : Type} (f : Char → List α) (g : List Char → List Char → List α) :
    Seg → List α
  | .lit c => f c
  | .ph name whole => g name whole

/-- The closed error taxonomy: one constructor per error site of the Rust
source, carrying the data interpolated into its message string. -/
inductive SubsError where
  | FormatError (sub : List Char)
  | MissingValueError (key : List Char)
  | AmbiguousSourceError
  | NoVariablesError
  | MultipleVariablesError
deriving DecidableEq

/-- Rust `sub.splitn(2, sep)` for a one-character separator: `none` when the
separator is absent (one part), otherwise the parts before and after its
first occurrence. -/
def splitFirstEq : List Char → Option (List Char × List Char)
  | [] => none
  | c :: cs =>
    if c = eqChar then some ([], cs)
    else
      match splitFirstEq cs with
      | some (k, v) => some (c :: k, v)
      | none => none

/-- src/main.rs lines 64–75. -/
def parse_substitution (sub : List Char) :
    Except SubsError (List Char × List Char) :=
  match splitFirstEq sub with
  | none => .error (.FormatError sub)
  | some (k, v) =>
    let key := lowerStr k
    if v = [] then .error (.MissingValueError key)
    else .ok (key, v)

/-- src/main.rs lines 80–90.  The source checks `variables.len() != 1` and
then takes the unique element; the two match arms are that same case split.
(`vars` models the `variables` argument; the word is reserved in Lean.) -/
def get_single_substitution (vars : List (List Char))
    (pos_value : Option (List Char)) :
    Except SubsError (List (List Char × List Char)) :=
  match pos_value with
  | some val =>
    match vars with
    | [v] => .ok [(v, val)]
    | _ => .error .MultipleVariablesError
  | none => .ok []

/-- `HashMap::insert`: the new pair shadows (replaces) any earlier binding
of the same key. -/
def hmInsert (k v : List Char) (m : List (List Char × List Char)) :
    List (List Char × List Char) :=
  (k, v) :: m.filter (fun p => decide (p.1 ≠ k))

/-- src/main.rs lines 142–147, the loop inserting each parsed `-s` entry,
with `acc` the map built so far. -/
def build_substitutionsAux (acc : List (List Char × List Char)) :
    List (List Char) → Except SubsError (List (List Char × List Char))
  | [] => .ok acc
  | sub :: rest =>
    match parse_substitution sub with
    | .error e => .error e
    | .ok (k, v) => build_substitutionsAux (hmInsert k v acc) rest

/-- src/main.rs lines 141–147: the mapping built from the raw `-s` entries. -/
def build_substitutions (raw_subs : List (List Char)) :
    Except SubsError (List (List Char × List Char)) :=
  build_substitutionsAux [] raw_subs

/-- src/main.rs lines 149–162, the positional-substitution block of `main`
(the spec's reconciler): with a positional value present, a non-empty keyed
mapping is ambiguous, an empty variable set is an error, and otherwise
`get_single_substitution` extends the (empty) keyed mapping; with no
positional value the keyed mapping passes through unchanged. -/
def reconcile (vars : List (List Char))
    (substitutions : List (List Char × List Char))
    (pos_value : Option (List Char)) :
    Except SubsError (List (List Char × List Char)) :=
  match pos_value with
  | none => .ok substitutions
  | some pv =>
    if substitutions ≠ [] then .error .AmbiguousSourceError
    else if vars = [] then .error .NoVariablesError
    else
      match get_single_substitution vars (some pv) with
      | .error e => .error e
      | .ok single => .ok (substitutions ++ single)

/-! Structural facts about one match attempt. -/

theorem pmatch_spec {cs : List Char} {m : PMatch} (h : pmatch cs = some m) :
    cs = m.whole ++ m.rest ∧ ∃ t, m.whole = lbrace :: lbrace :: t := by
  match cs with
  | [] => simp [pmatch] at h
  | [c] => simp [pmatch] at h
  | c1 :: c2 :: r0 =>
    simp only [pmatch] at h
    split at h
    case isFalse => exact absurd h (by simp)
    case isTrue hb =>
      split at h
      case isTrue => exact absurd h (by simp)
      case isFalse hname =>
        split at h
        case h_2 => exact absurd h (by simp)
        case h_1 d1 d2 r4 heq =>
          split at h
          case isFalse => exact absurd h (by simp)
          case isTrue hd =>
            rw [Option.some.injEq] at h
            subst h
            refine ⟨?_, ⟨_, by rw [hb.1, hb.2]⟩⟩
            simp only [List.cons_append, List.cons.injEq, true_and]
            have e3 : ((r0.dropWhile isSpaceChar).dropWhile isWordChar).takeWhile
                isSpaceChar ++ (d1 :: d2 :: r4) =
                (r0.dropWhile isSpaceChar).dropWhile isWordChar := by
              rw [← heq]; exact List.takeWhile_append_dropWhile _ _
            have e2 : (r0.dropWhile isSpaceChar).takeWhile isWordChar ++
                ((r0.dropWhile isSpaceChar).dropWhile isWordChar) =
                r0.dropWhile isSpaceChar := List.takeWhile_append_dropWhile _ _
            have e1 : r0.takeWhile isSpaceChar ++ r0.dropWhile isSpaceChar = r0 :=
              List.takeWhile_append_dropWhile _ _
            calc r0 = r0.takeWhile isSpaceChar ++ r0.dropWhile isSpaceChar := e1.symm
              _ = r0.takeWhile isSpaceChar ++
                  ((r0.dropWhile isSpaceChar).takeWhile isWordChar ++
                    ((r0.dropWhile isSpaceChar).dropWhile isWordChar)) := by rw [e2]
              _ = r0.takeWhile isSpaceChar ++
                  ((r0.dropWhile isSpaceChar).takeWhile isWordChar ++
                    (((r0.dropWhile isSpaceChar).dropWhile isWordChar).takeWhile
                      isSpaceChar ++ (d1 :: d2 :: r4))) := by rw [e3]
              _ = _ := by simp [List.append_assoc]

theorem pmatch_rest_len {cs : List Char} {m : PMatch} (h : pmatch cs = some m) :
    m.rest.length + 2 ≤ cs.length := by
  obtain ⟨hdec, t, hsh⟩ := pmatch_spec h
  rw [hdec, hsh]
  simp only [List.length_cons, List.length_append]
  omega

theorem pmatch_head_lbrace {c : Char} {cs : List Char} {m : PMatch}
    (h : pmatch (c :: cs) = some m) : c = lbrace := by
  obtain ⟨hdec, t, hsh⟩ := pmatch_spec h
  rw [hsh] at hdec
  exact (List.cons.injEq _ _ _ _ ▸ hdec).1

/-! The scan and its segmentation. -/

theorem scanGo_nil {α : Type} (f : Char → List α) (g : List Char → List Char → List α)
    (n : Nat) : scanGo f g n [] = [] := by
  cases n <;> simp [scanGo]

theorem scanGo_eq_segments {α : Type} (f : Char → List α)
    (g : List Char → List Char → List α) :
    ∀ (n : Nat) (cs : List Char),
      scanGo f g n cs =
        (scanGo (fun c => [Seg.lit c]) (fun name whole => [Seg.ph name whole]) n cs).flatMap
          (segApply f g)
  | 0, _ => by simp [scanGo]
  | _ + 1, [] => by simp [scanGo]
  | n + 1, c :: cs => by
    simp only [scanGo]
    cases hp : pmatch (c :: cs) with
    | some m =>
      simp only [List.flatMap_cons, List.singleton_append, segApply,
        scanGo_eq_segments f g n m.rest]
    | none =>
      simp only [List.flatMap_cons, List.singleton_append, segApply,
        scanGo_eq_segments f g n cs]

theorem scan_eq_segments {α : Type} (f : Char → List α)
    (g : List Char → List Char → List α) (content : List Char) :
    scan f g content = (segments content).flatMap (segApply f g) :=
  scanGo_eq_segments f g content.length content

theorem scanGo_orig : ∀ (n : Nat) (cs : List Char), cs.length ≤ n →
    scanGo (fun c => [c]) (fun _ whole => whole) n cs = cs
  | 0, [], _ => by simp [scanGo]
  | 0, _ :: _, h => by simp at h
  | _ + 1, [], _ => by simp [scanGo]
  | n + 1, c :: cs, h => by
    cases hp : pmatch (c :: cs) with
    | some m =>
      have hlen := pmatch_rest_len hp
      simp only [List.length_cons] at h hlen
      have hrec := scanGo_orig n m.rest (by omega)
      simp only [scanGo, hp, hrec]
      exact ((pmatch_spec hp).1).symm
    | none =>
      have hrec := scanGo_orig n cs (by simp only [List.length_cons] at h; omega)
      simp only [scanGo, hp, hrec, List.singleton_append]

theorem scan_orig (content : List Char) :
    scan (fun c => [c]) (fun _ whole => whole) content = content :=
  scanGo_orig content.length content (Nat.le_refl _)

theorem segments_orig (content : List Char) :
    (segments content).flatMap (segApply (fun c => [c]) (fun _ whole => whole)) =
      content := by
  rw [← scan_eq_segments]; exact scan_orig content

theorem process_eq_segments (content : List Char)
    (subs : List (List Char × List Char)) :
    process_content content subs =
      (segments content).flatMap
        (segApply (fun c => [c])
          (fun name whole => (lookupSub subs (lowerStr name)).getD whole)) :=
  scan_eq_segments _ _ content

theorem captures_eq_segments (content : List Char) :
    captures content =
      (segments content).flatMap (segApply (fun _ => []) (fun name _ => [name])) :=
  scan_eq_segments _ _ content

theorem unmatched_eq_segments (content : List Char) :
    unmatchedChars content =
      (segments content).flatMap (segApply (fun c => [c]) (fun _ _ => [])) :=
  scan_eq_segments _ _ content

theorem mem_captures_of_ph {name whole : List Char} {content : List Char}
    (h : Seg.ph name whole ∈ segments content) : name ∈ captures content := by
  rw [captures_eq_segments]
  exact List.mem_flatMap.2 ⟨_, h, by simp [segApply]⟩

theorem mem_unmatched_of_lit {c : Char} {content : List Char}
    (h : Seg.lit c ∈ segments content) : c ∈ unmatchedChars content := by
  rw [unmatched_eq_segments]
  exact List.mem_flatMap.2 ⟨_, h, by simp [segApply]⟩

theorem flatMapCongr {α β : Type} {l : List α} {f g : α → List β}
    (h : ∀ a ∈ l, f a = g a) : l.flatMap f = l.flatMap g := by
  induction l with
  | nil => simp
  | cons a l ih =>
    simp only [List.flatMap_cons, h a (by simp),
      ih (fun x hx => h x (by simp [hx]))]

/-! Absence of matches, and the character classes. -/

theorem hasPlaceholder_false_of_no_lbrace {cs : List Char} (h : lbrace ∉ cs) :
    hasPlaceholder cs = false := by
  induction cs with
  | nil => rfl
  | cons c cs ih =>
    have hc : c ≠ lbrace := fun hc => h (by simp [hc])
    have hcs : lbrace ∉ cs := fun hm => h (by simp [hm])
    simp only [hasPlaceholder, Bool.or_eq_false_iff]
    refine ⟨?_, ih hcs⟩
    cases hp : pmatch (c :: cs) with
    | some m => exact absurd (pmatch_head_lbrace hp) hc
    | none => rfl

theorem scanGo_captures_empty : ∀ (n : Nat) (cs : List Char),
    hasPlaceholder cs = false →
    scanGo (fun _ => ([] : List (List Char))) (fun name _ => [name]) n cs = []
  | 0, _, _ => by simp [scanGo]
  | _ + 1, [], _ => by simp [scanGo]
  | n + 1, c :: cs, h => by
    simp only [hasPlaceholder] at h
    cases hp : pmatch (c :: cs) with
    | some m => rw [hp] at h; simp at h
    | none =>
      rw [hp] at h
      simp only [Option.isSome_none, Bool.false_or] at h
      simp only [scanGo, hp, List.nil_append]
      exact scanGo_captures_empty n cs h

theorem word_not_space {c : Char} (h : isWordChar c = true) :
    isSpaceChar c = false := by
  simp only [isWordChar, decide_eq_true_eq] at h
  simp only [isSpaceChar, decide_eq_false_iff_not]
  omega

theorem rbrace_not_word : isWordChar rbrace = false := by decide

theorem rbrace_not_space : isSpaceChar rbrace = false := by decide

theorem takeWhile_append_of_all {α : Type} {p : α → Bool} {l t : List α}
    (h : ∀ c ∈ l, p c = true) : (l ++ t).takeWhile p = l ++ t.takeWhile p := by
  induction l with
  | nil => simp
  | cons a l ih =>
    have ha := h a (by simp)
    have hrec := ih (fun c hc => h c (by simp [hc]))
    simp [List.takeWhile_cons, ha, hrec]

theorem dropWhile_append_of_all {α : Type} {p : α → Bool} {l t : List α}
    (h : ∀ c ∈ l, p c = true) : (l ++ t).dropWhile p = t.dropWhile p := by
  induction l with
  | nil => simp
  | cons a l ih =>
    have ha := h a (by simp)
    have hrec := ih (fun c hc => h c (by simp [hc]))
    simp [List.dropWhile_cons, ha, hrec]

theorem pmatch_single {name : List Char} (h1 : name ≠ [])
    (h2 : ∀ c ∈ name, isWordChar c = true) :
    pmatch (lbrace :: lbrace :: (name ++ [rbrace, rbrace])) =
      some ⟨name, lbrace :: lbrace :: (name ++ [rbrace, rbrace]), []⟩ := by
  obtain ⟨a, name', rfl⟩ := List.exists_cons_of_ne_nil h1
  have ha := h2 a (by simp)
  have has : isSpaceChar a = false := word_not_space ha
  have e1 : ((a :: name') ++ [rbrace, rbrace]).takeWhile isSpaceChar = [] := by
    simp [List.takeWhile_cons, has]
  have e2 : ((a :: name') ++ [rbrace, rbrace]).dropWhile isSpaceChar =
      (a :: name') ++ [rbrace, rbrace] := by
    simp [List.dropWhile_cons, has]
  have e3 : ((a :: name') ++ [rbrace, rbrace]).takeWhile isWordChar = a :: name' := by
    rw [takeWhile_append_of_all h2]
    simp [List.takeWhile_cons, rbrace_not_word]
  have e4 : ((a :: name') ++ [rbrace, rbrace]).dropWhile isWordChar =
      [rbrace, rbrace] := by
    rw [dropWhile_append_of_all h2]
    simp [List.dropWhile_cons, rbrace_not_word]
  have e5 : ([rbrace, rbrace] : List Char).takeWhile isSpaceChar = [] := by
    simp [List.takeWhile_cons, rbrace_not_space]
  have e6 : ([rbrace, rbrace] : List Char).dropWhile isSpaceChar =
      [rbrace, rbrace] := by
    simp [List.dropWhile_cons, rbrace_not_space]
  simp only [pmatch, e1, e2, e3, e4, e5, e6]
  simp

/-! Parser and mapping lemmas. -/

theorem splitFirstEq_none {cs : List Char} (h : eqChar ∉ cs) :
    splitFirstEq cs = none := by
  induction cs with
  | nil => rfl
  | cons c cs ih =>
    have hc : ¬(c = eqChar) := fun hc => h (by simp [hc])
    have hcs : eqChar ∉ cs := fun hm => h (by simp [hm])
    simp only [splitFirstEq, if_neg hc, ih hcs]

theorem splitFirstEq_app {pre suf : List Char} (h : eqChar ∉ pre) :
    splitFirstEq (pre ++ eqChar :: suf) = some (pre, suf) := by
  induction pre with
  | nil => simp [splitFirstEq]
  | cons c pre ih =>
    have hc : ¬(c = eqChar) := fun hc => h (by simp [hc])
    have hp : eqChar ∉ pre := fun hm => h (by simp [hm])
    simp only [List.cons_append, splitFirstEq, if_neg hc, List.append_eq, ih hp]

theorem parse_value_ne_nil {s k v : List Char}
    (h : parse_substitution s = .ok (k, v)) : v ≠ [] := by
  cases hsp : splitFirstEq s with
  | none => simp [parse_substitution, hsp] at h
  | some kv =>
    obtain ⟨k0, v0⟩ := kv
    simp only [parse_substitution, hsp] at h
    by_cases hv : v0 = []
    · rw [if_pos hv] at h; cases h
    · rw [if_neg hv] at h
      rw [Except.ok.injEq, Prod.mk.injEq] at h
      exact h.2 ▸ hv

theorem lookupSub_mem : ∀ {m : List (List Char × List Char)} {k v : List Char},
    lookupSub m k = some v → ∃ p ∈ m, p.2 = v := by
  intro m
  induction m with
  | nil => intro k v h; cases h
  | cons p rest ih =>
    intro k v h
    obtain ⟨k0, v0⟩ := p
    simp only [lookupSub] at h
    by_cases hk : k0 = k
    · rw [if_pos hk, Option.some.injEq] at h
      exact ⟨(k0, v0), by simp, h⟩
    · rw [if_neg hk] at h
      obtain ⟨q, hq, he⟩ := ih h
      exact ⟨q, by simp [hq], he⟩

theorem get_single_values {vars : List (List Char)} {pv : List Char}
    {single : List (List Char × List Char)}
    (h : get_single_substitution vars (some pv) = .ok single) :
    ∀ p ∈ single, p.2 = pv := by
  rcases vars with _ | ⟨v, _ | ⟨v2, vs⟩⟩
  · simp [get_single_substitution] at h
  · simp only [get_single_substitution, Except.ok.injEq] at h
    subst h
    simp
  · simp [get_single_substitution] at h

theorem build_aux_values : ∀ {raws : List (List Char)}
    {acc m : List (List Char × List Char)},
    (∀ p ∈ acc, p.2 ≠ []) →
    build_substitutionsAux acc raws = .ok m → ∀ p ∈ m, p.2 ≠ [] := by
  intro raws
  induction raws with
  | nil =>
    intro acc m hacc h
    rw [build_substitutionsAux, Except.ok.injEq] at h
    exact h ▸ hacc
  | cons s rest ih =>
    intro acc m hacc h
    simp only [build_substitutionsAux] at h
    cases hps : parse_substitution s with
    | error e => rw [hps] at h; cases h
    | ok kv =>
      obtain ⟨k, v⟩ := kv
      rw [hps] at h
      have hv : v ≠ [] := parse_value_ne_nil hps
      refine ih ?_ h
      intro q hq
      simp only [hmInsert, List.mem_cons, List.mem_filter] at hq
      rcases hq with rfl | ⟨hq, _⟩
      · exact hv
      · exact hacc q hq

/-! The claims. -/

/-- C1 counterexample: the round-trip claim fails as stated.  First input:
text `\x7b\x7ba\x7d\x7d` fully covered by the mapping `a ↦ \x7b\x7bb\x7d\x7d`;
the inserted value is itself a placeholder, so the output matches the
pattern.  Second input: text `\x7b\x7b \x7b\x7ba\x7d\x7d \x7d\x7d` fully
covered by `a ↦ name`, a value without any brace; the stray braces outside
the match combine with the inserted value into a new match. -/
theorem process_content_roundtrip_cex :
    (extract_variables "\x7b\x7ba\x7d\x7d".toList = ["a".toList] ∧
      lookupSub [("a".toList, "\x7b\x7bb\x7d\x7d".toList)] "a".toList =
        some "\x7b\x7bb\x7d\x7d".toList ∧
      hasPlaceholder (process_content "\x7b\x7ba\x7d\x7d".toList
        [("a".toList, "\x7b\x7bb\x7d\x7d".toList)]) = true) ∧
    (extract_variables "\x7b\x7b \x7b\x7ba\x7d\x7d \x7d\x7d".toList =
        ["a".toList] ∧
      lookupSub [("a".toList, "name".toList)] "a".toList =
        some "name".toList ∧
      lbrace ∉ "name".toList ∧
      hasPlaceholder (process_content "\x7b\x7b \x7b\x7ba\x7d\x7d \x7d\x7d".toList
        [("a".toList, "name".toList)]) = true) := by
  exact ⟨⟨by decide, by decide, by decide⟩, by decide, by decide, by decide, by decide⟩

/-- C1 (amended): if the mapping has an entry for every variable of
`extract_variables content`, no value of the mapping contains an opening
brace, and no opening brace of the text lies outside the matched
placeholders, then the output of `process_content` contains no match of the
placeholder pattern.  The two extra conditions are exactly what the
counterexample shows to be necessary: an inserted value, or a stray brace
of the text, can otherwise form a new match in the output. -/
theorem process_content_roundtrip (content : List Char)
    (subs : List (List Char × List Char))
    (hcov : ∀ n ∈ extract_variables content, (lookupSub subs n).isSome = true)
    (hval : ∀ p ∈ subs, lbrace ∉ p.2)
    (hres : lbrace ∉ unmatchedChars content) :
    hasPlaceholder (process_content content subs) = false := by
  apply hasPlaceholder_false_of_no_lbrace
  intro hmem
  rw [process_eq_segments] at hmem
  rcases List.mem_flatMap.1 hmem with ⟨seg, hseg, hx⟩
  cases seg with
  | lit c =>
    simp only [segApply, List.mem_singleton] at hx
    subst hx
    exact hres (mem_unmatched_of_lit hseg)
  | ph name whole =>
    have hnm : name ∈ captures content := mem_captures_of_ph hseg
    have hvar : lowerStr name ∈ extract_variables content := by
      simp only [extract_variables, List.mem_dedup, List.mem_map]
      exact ⟨name, hnm, rfl⟩
    obtain ⟨v, hv⟩ := Option.isSome_iff_exists.1 (hcov _ hvar)
    obtain ⟨p, hp, hpv⟩ := lookupSub_mem hv
    simp only [segApply, hv, Option.getD_some] at hx
    exact hval p hp (hpv ▸ hx)

/-- C1 witness: a fully covered text with brace-free values and no stray
brace yields an output with no placeholder match. -/
theorem process_content_roundtrip_witness :
    hasPlaceholder (process_content "Hello \x7b\x7bname\x7d\x7d!".toList
      [("name".toList, "Alice".toList)]) = false :=
  process_content_roundtrip "Hello \x7b\x7bname\x7d\x7d!".toList
    [("name".toList, "Alice".toList)] (by decide) (by decide) (by decide)

/-- C2 counterexample: the no-empty-value claim fails as stated.  The
reconciler performs no emptiness check on the positional value, so an empty
positional value (`cbsub file ""` on a one-variable document) yields a
mapping containing the empty-string value. -/
theorem no_empty_values_cex :
    reconcile ["name".toList] [] (some []) = .ok [("name".toList, [])] := by rfl

/-- C2 (amended): a mapping built from parsed `key=value` entries contains
no empty-string value — emptiness is rejected at parse time — and the
reconciler preserves this provided the positional value, when present, is
non-empty (the reconciler itself checks nothing, as the counterexample
shows). -/
theorem no_empty_values :
    (∀ (raws : List (List Char)) (m : List (List Char × List Char)),
      build_substitutions raws = .ok m → ∀ p ∈ m, p.2 ≠ []) ∧
    (∀ (vars : List (List Char)) (keyed : List (List Char × List Char))
      (pos_value : Option (List Char)) (m : List (List Char × List Char)),
      (∀ p ∈ keyed, p.2 ≠ []) → (∀ pv, pos_value = some pv → pv ≠ []) →
      reconcile vars keyed pos_value = .ok m → ∀ p ∈ m, p.2 ≠ []) := by
  constructor
  · intro raws m h
    exact build_aux_values (by simp) h
  · intro vars keyed pos m hk hpv h q hq
    cases pos with
    | none =>
      rw [reconcile, Except.ok.injEq] at h
      subst h
      exact hk q hq
    | some pv =>
      simp only [reconcile] at h
      by_cases hne : keyed ≠ []
      · rw [if_pos hne] at h; cases h
      · rw [if_neg hne] at h
        by_cases hv : vars = []
        · rw [if_pos hv] at h; cases h
        · rw [if_neg hv] at h
          cases hg : get_single_substitution vars (some pv) with
          | error e => rw [hg] at h; cases h
          | ok single =>
            rw [hg] at h
            simp only [Except.ok.injEq] at h
            subst h
            rcases List.mem_append.1 hq with h1 | h2
            · exact hk q h1
            · exact (get_single_values hg q h2) ▸ hpv pv rfl

/-- C2 witness: a parsed entry and a non-empty positional value both yield
mappings with non-empty values. -/
theorem no_empty_values_witness :
    build_substitutions ["a=b".toList] = .ok [("a".toList, "b".toList)] ∧
      "b".toList ≠ [] :=
  ⟨rfl, no_empty_values.1 ["a=b".toList] [("a".toList, "b".toList)] rfl
    ("a".toList, "b".toList) (by simp)⟩

/-- C3: with a keyed entry present and a positional value present, the
reconciler fails with `AmbiguousSourceError`, for every variable set — in
particular also when the variable set is empty or has several members, so
the check precedes the `NoVariablesError` and `MultipleVariablesError`
checks. -/
theorem reconcile_ambiguous (vars : List (List Char))
    (kv : List Char × List Char) (keyed : List (List Char × List Char))
    (pv : List Char) :
    reconcile vars (kv :: keyed) (some pv) = .error .AmbiguousSourceError := by
  simp [reconcile]

/-- C4: with no keyed entries and a positional value present, an empty
variable set fails with `NoVariablesError` and a variable set with more
than one member fails with `MultipleVariablesError`. -/
theorem reconcile_positional_errors (pv : List Char) :
    (reconcile [] [] (some pv) = .error .NoVariablesError) ∧
    (∀ (v1 v2 : List Char) (vs : List (List Char)),
      reconcile (v1 :: v2 :: vs) [] (some pv) =
        .error .MultipleVariablesError) := by
  constructor
  · simp [reconcile]
  · intro v1 v2 vs
    simp [reconcile, get_single_substitution]

/-- C5: with no keyed entries and exactly one variable, a positional value
yields the mapping assigning that variable to the value; with no positional
value the keyed mapping passes through unchanged. -/
theorem reconcile_success :
    (∀ (v pv : List Char), reconcile [v] [] (some pv) = .ok [(v, pv)]) ∧
    (∀ (vars : List (List Char)) (keyed : List (List Char × List Char)),
      reconcile vars keyed none = .ok keyed) := by
  constructor
  · intro v pv
    simp [reconcile, get_single_substitution]
  · intro vars keyed
    rfl

/-- C6: `parse_substitution` splits at the first `=` character: it fails
with `FormatError` when no `=` is present, fails with `MissingValueError`
when the part after the first `=` is empty, and otherwise returns the
lowercased key with the value unmodified — so the value may itself contain
`=` characters. -/
theorem parse_substitution_spec :
    (∀ sub : List Char, eqChar ∉ sub →
      parse_substitution sub = .error (.FormatError sub)) ∧
    (∀ pre suf : List Char, eqChar ∉ pre →
      parse_substitution (pre ++ eqChar :: suf) =
        if suf = [] then .error (.MissingValueError (lowerStr pre))
        else .ok (lowerStr pre, suf)) := by
  constructor
  · intro sub h
    simp only [parse_substitution, splitFirstEq_none h]
  · intro pre suf h
    simp only [parse_substitution, splitFirstEq_app h]

/-- C6 witness: `NaMe=a=b` parses to the lowercased key `name` and the
unmodified value `a=b`, which itself contains `=`. -/
theorem parse_substitution_spec_witness :
    parse_substitution ("NaMe".toList ++ eqChar :: "a=b".toList) =
      .ok ("name".toList, "a=b".toList) := by
  rw [parse_substitution_spec.2 "NaMe".toList "a=b".toList (by decide)]
  rfl

/-- C7: `extract_variables` is exactly the set of case-folded names captured
by the placeholder pattern: it is duplicate-free, a name is a member exactly
when some match of the pattern captures it (in whatever casing and however
often), and it is empty when the text contains no match of the pattern. -/
theorem extract_variables_spec (content : List Char) :
    (extract_variables content).Nodup ∧
    (∀ n, n ∈ extract_variables content ↔
      ∃ raw ∈ captures content, lowerStr raw = n) ∧
    (hasPlaceholder content = false → extract_variables content = []) := by
  refine ⟨List.nodup_dedup _, ?_, ?_⟩
  · intro n
    simp [extract_variables, List.mem_dedup, List.mem_map]
  · intro h
    have hc : captures content = [] :=
      scanGo_captures_empty content.length content h
    simp [extract_variables, hc]

/-- C7 witness: a text without placeholders has no variables. -/
theorem extract_variables_spec_witness :
    hasPlaceholder "plain text".toList = false ∧
      extract_variables "plain text".toList = [] :=
  ⟨by decide, (extract_variables_spec "plain text".toList).2.2 (by decide)⟩

/-- C8: pass-through preservation: the output is the segment-wise rendering
of the text in which every unmatched character is kept exactly and every
placeholder whose case-folded name is missing from the mapping contributes
its whole original span (braces, inner whitespace and casing included); when
no captured name is mapped the output equals the text, and in particular
`process_content` with the empty mapping is the identity. -/
theorem process_content_pass_through (content : List Char)
    (subs : List (List Char × List Char)) :
    (process_content content subs =
      (segments content).flatMap
        (segApply (fun c => [c])
          (fun name whole => (lookupSub subs (lowerStr name)).getD whole))) ∧
    ((∀ raw ∈ captures content, lookupSub subs (lowerStr raw) = none) →
      process_content content subs = content) ∧
    process_content content [] = content := by
  refine ⟨process_eq_segments content subs, ?_, ?_⟩
  · intro habs
    rw [process_eq_segments content subs]
    conv_rhs => rw [← segments_orig content]
    apply flatMapCongr
    intro seg hseg
    cases seg with
    | lit c => rfl
    | ph name whole =>
      simp [segApply, habs name (mem_captures_of_ph hseg)]
  · rw [process_eq_segments content []]
    conv_rhs => rw [← segments_orig content]
    apply flatMapCongr
    intro seg hseg
    cases seg with
    | lit c => rfl
    | ph name whole => simp [segApply, lookupSub]

/-- C8 witness: a placeholder absent from the mapping passes through
verbatim with its original casing and whitespace. -/
theorem process_content_pass_through_witness :
    process_content "Hello \x7b\x7b NaMe \x7d\x7d!".toList
        [("code".toList, "9".toList)] =
      "Hello \x7b\x7b NaMe \x7d\x7d!".toList :=
  (process_content_pass_through "Hello \x7b\x7b NaMe \x7d\x7d!".toList
    [("code".toList, "9".toList)]).2.1 (by decide)

/-- C9: single-pass substitution: for every text and mapping the output is
the one-pass segment rendering in which each matched placeholder span is
replaced by its mapped value verbatim, and nothing further happens to an
inserted value — the output for a mapped placeholder is exactly the value,
even when the value itself contains placeholder syntax whose name the
mapping also covers. -/
theorem process_content_single_pass :
    (∀ (content : List Char) (subs : List (List Char × List Char)),
      process_content content subs =
        (segments content).flatMap
          (segApply (fun c => [c])
            (fun name whole => (lookupSub subs (lowerStr name)).getD whole))) ∧
    (∀ (name v : List Char) (subs : List (List Char × List Char)),
      name ≠ [] → (∀ c ∈ name, isWordChar c = true) →
      lookupSub subs (lowerStr name) = some v →
      process_content (lbrace :: lbrace :: (name ++ [rbrace, rbrace])) subs = v) := by
  refine ⟨fun content subs => process_eq_segments content subs, ?_⟩
  intro name v subs h1 h2 h3
  have hm := pmatch_single h1 h2
  have hlen : (lbrace :: lbrace :: (name ++ [rbrace, rbrace])).length =
      (name.length + 3) + 1 := by
    simp
  rw [process_content, scan, hlen]
  simp only [scanGo, hm, h3, Option.getD_some, scanGo_nil, List.append_nil]

/-- C9 witness: the value `\x7b\x7bb\x7d\x7d` is inserted verbatim and not
expanded, although the mapping also has an entry for `b`. -/
theorem process_content_single_pass_witness :
    process_content (lbrace :: lbrace :: ("a".toList ++ [rbrace, rbrace]))
        [("a".toList, "\x7b\x7bb\x7d\x7d".toList), ("b".toList, "X".toList)] =
      "\x7b\x7bb\x7d\x7d".toList :=
  process_content_single_pass.2 "a".toList "\x7b\x7bb\x7d\x7d".toList
    [("a".toList, "\x7b\x7bb\x7d\x7d".toList), ("b".toList, "X".toList)]
    (by decide) (by decide) (by decide)

/-- C10: the key part is not validated: any raw string beginning with `=`
followed by a non-empty remainder parses successfully and returns the empty
string as the key — a key that does not even belong to the placeholder-name
character set. -/
theorem parse_substitution_empty_key (v : List Char) (h : v ≠ []) :
    parse_substitution (eqChar :: v) = .ok ([], v) := by
  have hs : splitFirstEq (eqChar :: v) = some ([], v) := by
    simp [splitFirstEq]
  simp only [parse_substitution, hs, if_neg h, lowerStr, List.map_nil]

/-- C10 witness: `=Alice` parses to the empty key and value `Alice`. -/
theorem parse_substitution_empty_key_witness :
    parse_substitution (eqChar :: "Alice".toList) = .ok ([], "Alice".toList) :=
  parse_substitution_empty_key "Alice".toList (by decide)

end Cbsub
